import Mathlib

/-!
Shallow embedding of the enigma crate (rotor cipher machine plus the
Rejewski cycle-matching cryptanalysis) and verification of its
specification claims.

Machine integers (`u8`) are modelled as `Nat`; every arithmetic spot where
the Rust code can wrap carries an explicit `% 256` or `% 26`.  Fallible
constructors return `Option`; abnormal process terminations of the
cryptanalysis binary are modelled by a dedicated outcome type.  Loops are
translated to structural recursion; the two cycle-walk `while` loops of
the source get an explicit fuel argument (instantiated with the list
length at every call site, which is shown to be enough fuel under the
validity hypotheses).
-/

set_option maxRecDepth 8000

/-- List lookup with default `0`, modelling `Vec<u8>` indexing (every use
site keeps the index in bounds under the validity hypotheses). -/
def lget (l : List Nat) (i : Nat) : Nat := l.getD i 0

/-- Modelled from the spec: the constant `RUNE_SET_SIZE` is re-exported and
used by the sources but its definition is missing from them; the spec fixes
the alphabet to the 26 case-insensitive Latin letters. -/
def RUNE_SET_SIZE : Nat := 26

/-- `Permutation` from `math.rs`: a wrapper around the raw value vector. -/
structure Permutation where
  perm : List Nat
deriving DecidableEq

/-- `identity_perm` from `math.rs`: the vector `[0, 1, ..., n-1]`. -/
def identityPerm (n : Nat) : List Nat := List.range n

/-- The duplicate scan of `Permutation::from_perm` (the nested index loop,
written as structural recursion: some position's value reappears later). -/
def hasDupVal : List Nat → Bool
  | [] => false
  | x :: xs => xs.contains x || hasDupVal xs

/-- `Permutation::from_perm`: reject length above `u8::MAX`, any value not
below the length, or a duplicated value; otherwise wrap the vector. -/
def Permutation.fromPerm (l : List Nat) : Option Permutation :=
  if 255 < l.length then none
  else if l.any (fun x => decide (l.length ≤ x)) then none
  else if hasDupVal l then none
  else some ⟨l⟩

/-- `Permutation::identity`. -/
def Permutation.identity (n : Nat) : Permutation := ⟨identityPerm n⟩

/-- `Permutation::n`: the length, cast to `u8`. -/
def Permutation.n (p : Permutation) : Nat := p.perm.length % 256

/-- `Permutation::map`: plain vector indexing. -/
def Permutation.map (p : Permutation) (element : Nat) : Nat := lget p.perm element

/-- The inner `while !visited[j]` loop of `Permutation::max_cycle_len`,
with fuel.  Each iteration marks `j` and follows the permutation; the
result is the number of marks together with the updated mark vector. -/
def cycleWalk (l : List Nat) : List Bool → Nat → Nat → Nat × List Bool
  | visited, _, 0 => (0, visited)
  | visited, j, fuel + 1 =>
    if visited.getD j true then (0, visited)
    else
      let r := cycleWalk l (visited.set j true) (lget l j) fuel
      (r.1 + 1, r.2)

/-- The outer index loop of `Permutation::max_cycle_len`. -/
def mclLoop (l : List Nat) : List Nat → List Bool → Nat → Nat
  | [], _, maxLen => maxLen
  | i :: rest, visited, maxLen =>
    if visited.getD i true then mclLoop l rest visited maxLen
    else
      let r := cycleWalk l visited i l.length
      mclLoop l rest r.2 (max maxLen r.1)

/-- `Permutation::max_cycle_len` on the raw vector. -/
def maxCycleLen (l : List Nat) : Nat :=
  mclLoop l (List.range l.length) (List.replicate l.length false) 0

/-- Modelled from the spec: `Permutation::inverse` is called by
`Rotator::new` but its definition is missing from the sources; the spec
describes it as O(n) scatter-write construction, `inverse[perm[i]] = i`. -/
def Permutation.inverse (p : Permutation) : Permutation :=
  ⟨(List.range p.perm.length).foldl (fun acc i => acc.set (lget p.perm i) i)
    (List.replicate p.perm.length 0)⟩

/-- `Rune` from `utils.rs`: a letter index. -/
structure Rune where
  value : Nat
deriving DecidableEq

/-- `Rune::from_value`: reject values above `RUNE_VALUE_MAX = 25`. -/
def Rune.fromValue (value : Nat) : Option Rune :=
  if 25 < value then none else some ⟨value⟩

/-- `char::is_ascii_alphabetic`. -/
def isAsciiAlphabetic (c : Char) : Bool :=
  (decide (65 ≤ c.toNat) && decide (c.toNat ≤ 90)) ||
    (decide (97 ≤ c.toNat) && decide (c.toNat ≤ 122))

/-- `char::is_ascii_lowercase`. -/
def isAsciiLowercase (c : Char) : Bool :=
  decide (97 ≤ c.toNat) && decide (c.toNat ≤ 122)

/-- `Rune::from_char`: reject non-letters, normalize case, subtract `b'A'`. -/
def Rune.fromChar (c : Char) : Option Rune :=
  if isAsciiAlphabetic c = false then none
  else
    let v := if isAsciiLowercase c = true then c.toNat - 32 else c.toNat
    some ⟨v - 65⟩

/-- `Rune::into_char`: the canonical uppercase letter. -/
def Rune.intoChar (r : Rune) : Char := Char.ofNat (r.value + 65)

/-- `PlugBoard` from `components/plug_board.rs`. -/
structure PlugBoard where
  perm : Permutation
deriving DecidableEq

/-- `PlugBoard::from_perm`: size must be 26 and the longest cycle at most 2. -/
def PlugBoard.fromPerm (p : Permutation) : Option PlugBoard :=
  if p.n ≠ RUNE_SET_SIZE then none
  else if 2 < maxCycleLen p.perm then none
  else some ⟨p⟩

/-- `PlugBoard::map`. -/
def PlugBoard.map (b : PlugBoard) (input : Rune) : Rune := ⟨b.perm.map input.value⟩

/-- `Reflector` from `components/reflector.rs`. -/
structure Reflector where
  perm : Permutation
deriving DecidableEq

/-- `Reflector::from_perm`: size 26, no fixed point, longest cycle exactly 2. -/
def Reflector.fromPerm (p : Permutation) : Option Reflector :=
  if p.n ≠ RUNE_SET_SIZE then none
  else if (List.range p.n).any (fun i => decide (p.map i = i)) then none
  else if maxCycleLen p.perm ≠ 2 then none
  else some ⟨p⟩

/-- `Reflector::map`. -/
def Reflector.map (r : Reflector) (input : Rune) : Rune := ⟨r.perm.map input.value⟩

/-- `Rotator` from `components/rotator.rs`: forward wiring, derived inverse
wiring, and the rotating offset. -/
structure Rotator where
  permForward : Permutation
  permBackward : Permutation
  offset : Nat
deriving DecidableEq

/-- `Rotator::new`: size must be 26; the inverse wiring is derived and the
offset reduced modulo 26. -/
def Rotator.new (perm : Permutation) (offset : Nat) : Option Rotator :=
  if perm.n ≠ RUNE_SET_SIZE then none
  else some ⟨perm, perm.inverse, offset % RUNE_SET_SIZE⟩

/-- `Rotator::map`: shift by the offset, apply the wiring, shift back with
wraparound correction. -/
def Rotator.mapWith (r : Rotator) (perm : Permutation) (input : Rune) : Rune :=
  let inputValue := (input.value + r.offset) % RUNE_SET_SIZE
  let mappedValue := perm.map inputValue
  if r.offset ≤ mappedValue then ⟨mappedValue - r.offset⟩
  else ⟨mappedValue + RUNE_SET_SIZE - r.offset⟩

/-- `Rotator::map_forward`. -/
def Rotator.mapForward (r : Rotator) (input : Rune) : Rune :=
  r.mapWith r.permForward input

/-- `Rotator::map_backward`. -/
def Rotator.mapBackward (r : Rotator) (input : Rune) : Rune :=
  r.mapWith r.permBackward input

/-- `Rotator::advance`: step the offset; report `true` unless it wrapped. -/
def Rotator.advance (r : Rotator) : Rotator × Bool :=
  let o := (r.offset + 1) % RUNE_SET_SIZE
  (⟨r.permForward, r.permBackward, o⟩, o != 0)

/-- `RotatorGroup`: the fixed array of three rotators. -/
structure RotatorGroup where
  r0 : Rotator
  r1 : Rotator
  r2 : Rotator
deriving DecidableEq

/-- `RotatorGroup::map_forward`: first rotator first. -/
def RotatorGroup.mapForward (g : RotatorGroup) (input : Rune) : Rune :=
  g.r2.mapForward (g.r1.mapForward (g.r0.mapForward input))

/-- `RotatorGroup::map_backward`: last rotator first. -/
def RotatorGroup.mapBackward (g : RotatorGroup) (input : Rune) : Rune :=
  g.r0.mapBackward (g.r1.mapBackward (g.r2.mapBackward input))

/-- `RotatorGroup::advance`: the `for`-with-`break` carry loop, unrolled
over the three rotators. -/
def RotatorGroup.advance (g : RotatorGroup) : RotatorGroup :=
  let a0 := g.r0.advance
  if a0.2 then ⟨a0.1, g.r1, g.r2⟩
  else
    let a1 := g.r1.advance
    if a1.2 then ⟨a0.1, a1.1, g.r2⟩
    else ⟨a0.1, a1.1, (g.r2.advance).1⟩

/-- The `Enigma` machine from `lib.rs`. -/
structure Enigma where
  plug : PlugBoard
  rotators : RotatorGroup
  reflector : Reflector
deriving DecidableEq

/-- `Enigma::map_rune_static`: plug, rotors forward, reflector, rotors
backward, plug. -/
def Enigma.mapRuneStatic (m : Enigma) (input : Rune) : Rune :=
  m.plug.map (m.rotators.mapBackward (m.reflector.map
    (m.rotators.mapForward (m.plug.map input))))

/-- `Enigma::advance_rotators`. -/
def Enigma.advanceRotators (m : Enigma) : Enigma :=
  ⟨m.plug, m.rotators.advance, m.reflector⟩

/-- `Enigma::map_rune`: map with the current state, then advance. -/
def Enigma.mapRune (m : Enigma) (input : Rune) : Rune × Enigma :=
  (m.mapRuneStatic input, m.advanceRotators)

/-- `Enigma::map_str`: map each convertible character, silently skipping
the rest; the machine state threads through. -/
def Enigma.mapStr : Enigma → List Char → List Char × Enigma
  | m, [] => ([], m)
  | m, c :: rest =>
    match Rune.fromChar c with
    | some r =>
      let step := m.mapRune r
      let tail := step.2.mapStr rest
      (step.1.intoChar :: tail.1, tail.2)
    | none => m.mapStr rest

/-- The inner `while j != i` loop of `get_cycle_decomposition` from
`enigma-crack.rs`, with fuel. -/
def decompWalk (l : List Nat) (i : Nat) : List Bool → Nat → Nat → Nat → Nat × List Bool
  | visited, _, cycleLen, 0 => (cycleLen, visited)
  | visited, j, cycleLen, fuel + 1 =>
    if j = i then (cycleLen, visited)
    else decompWalk l i (visited.set j true) (lget l j) (cycleLen + 1) fuel

/-- The outer index loop of `get_cycle_decomposition`: one pushed cycle
length per unvisited index. -/
def cdLoop (l : List Nat) : List Nat → List Bool → List Nat
  | [], _ => []
  | i :: rest, visited =>
    if visited.getD i true then cdLoop l rest visited
    else
      let w := decompWalk l i visited (lget l i) 1 l.length
      w.1 :: cdLoop l rest w.2

/-- `get_cycle_decomposition` from `enigma-crack.rs`. -/
def getCycleDecomposition (l : List Nat) : List Nat :=
  cdLoop l (List.range l.length) (List.replicate l.length false)

/-- Bounds-checked vector write: `none` models the index-out-of-bounds
abort of `Vec` indexing. -/
def setChecked (l : List Nat) (i : Nat) (x : Nat) : Option (List Nat) :=
  if i < l.length then some (l.set i x) else none

/-- `combine_permutations` from `enigma-crack.rs`: the output vector is
allocated with `Vec::with_capacity` (so it has length zero) and then
written through `ret[i] = ...`; `none` models the resulting out-of-bounds
abort (and the final `from_perm(...).unwrap()`). -/
def combinePermutations (lhs rhs : Permutation) : Option Permutation :=
  let folded := (List.range RUNE_SET_SIZE).foldl
    (fun acc i =>
      match acc with
      | none => none
      | some ret => setChecked ret i (rhs.map (lhs.map i)))
    (some [])
  match folded with
  | none => none
  | some ret => Permutation.fromPerm ret

/-- Outcome of `get_secret_permutations` from `enigma-crack.rs`:
the two reported fatal exits, an index-out-of-bounds abort, or success. -/
inductive SecretOutcome where
  | conflictAbort
  | insufficientAbort
  | oobAbort
  | okPerms (perms : List Permutation)
deriving DecidableEq

/-- The `as i8` cast of a byte. -/
def toI8 (b : Nat) : Int :=
  if b % 256 < 128 then (b % 256 : Nat) else (b % 256 : Nat) - 256

/-- One `(input, output)` offset pair of one indicator, ingested into the
partial-permutation buffer exactly as the source does: read the current
cell (aborting out of bounds), fatal-exit on a conflicting assignment,
otherwise store the output byte. -/
def ingestPair (buf : List (List Int)) (secret : List Nat) (i : Nat) :
    Except SecretOutcome (List (List Int)) :=
  let input := secret.getD i 0
  let output := secret.getD (i + 3) 0
  let row := buf.getD i []
  if input < row.length then
    let cur := row.getD input 0
    if cur ≠ -1 ∧ cur ≠ toI8 output then Except.error SecretOutcome.conflictAbort
    else Except.ok (buf.set i (row.set input (toI8 output)))
  else Except.error SecretOutcome.oobAbort

/-- Ingest the three offset pairs `(0,3), (1,4), (2,5)` of one indicator. -/
def ingestSecret (buf : List (List Int)) (secret : List Nat) :
    Except SecretOutcome (List (List Int)) := do
  let b1 ← ingestPair buf secret 0
  let b2 ← ingestPair b1 secret 1
  ingestPair b2 secret 2

/-- `get_secret_permutations` from `enigma-crack.rs`: three buffers of 26
cells initialized to `-1`, all indicators ingested in order, then the
insufficiency check and the final `Permutation` constructions. -/
def getSecretPermutations (secrets : List (List Nat)) : SecretOutcome :=
  let buf0 : List (List Int) :=
    [List.replicate RUNE_SET_SIZE (-1), List.replicate RUNE_SET_SIZE (-1),
      List.replicate RUNE_SET_SIZE (-1)]
  match secrets.foldlM (fun buf s => ingestSecret buf s) buf0 with
  | Except.error e => e
  | Except.ok buf =>
    if buf.any (fun row => row.contains (-1)) then SecretOutcome.insufficientAbort
    else
      match buf.mapM (fun row =>
          Permutation.fromPerm (row.map (fun x => (x % 256).toNat))) with
      | some perms => SecretOutcome.okPerms perms
      | none => SecretOutcome.oobAbort

/-! ### Generic list helpers -/

theorem getD_set_spec {α : Type} (l : List α) (i j : Nat) (a d : α) :
    (l.set i a).getD j d = if j = i ∧ i < l.length then a else l.getD j d := by
  induction l generalizing i j with
  | nil => simp
  | cons x xs ih =>
    cases i with
    | zero =>
      cases j with
      | zero => simp
      | succ j' => simp
    | succ i' =>
      cases j with
      | zero => simp
      | succ j' =>
        simp only [List.set, List.getD_cons_succ, ih, List.length_cons]
        have hc : (j' = i' ∧ i' < xs.length) ↔
            (j' + 1 = i' + 1 ∧ i' + 1 < xs.length + 1) := by omega
        rw [if_congr hc rfl rfl]

theorem getD_replicate {α : Type} (n i : Nat) (a d : α) :
    (List.replicate n a).getD i d = if i < n then a else d := by
  induction n generalizing i with
  | zero => simp
  | succ n' ih =>
    cases i with
    | zero => simp [List.replicate]
    | succ i' =>
      rw [List.replicate_succ, List.getD_cons_succ, ih]
      have hc : (i' < n') ↔ (i' + 1 < n' + 1) := by omega
      rw [if_congr hc rfl rfl]

theorem cycleWalk_length (l : List Nat) (visited : List Bool) (j fuel : Nat) :
    (cycleWalk l visited j fuel).2.length = visited.length := by
  induction fuel generalizing visited j with
  | zero => rfl
  | succ f ih =>
    simp only [cycleWalk]
    split
    · rfl
    · simpa using (ih (visited.set j true) (lget l j)).trans (List.length_set _ _ _)

/-! ### Validity and orbit structure of a permutation vector -/

/-- The vector is a bijection on the index range: every value is in range
and no value repeats. -/
def ValidPerm (l : List Nat) : Prop :=
  (∀ i, i < l.length → lget l i < l.length) ∧
    ∀ i j, i < l.length → j < l.length → lget l i = lget l j → i = j

/-- Iterated application of the permutation vector. -/
def orbIter (l : List Nat) : Nat → Nat → Nat
  | 0, x => x
  | k + 1, x => lget l (orbIter l k x)

theorem orbIter_add (l : List Nat) (a b x : Nat) :
    orbIter l (a + b) x = orbIter l a (orbIter l b x) := by
  induction a with
  | zero => simp [orbIter, Nat.zero_add]
  | succ a ih =>
    have h : a + 1 + b = (a + b) + 1 := by omega
    rw [h]
    simp [orbIter, ih]

theorem orbIter_lt (l : List Nat) (hv : ValidPerm l) (k x : Nat) (hx : x < l.length) :
    orbIter l k x < l.length := by
  induction k with
  | zero => exact hx
  | succ k ih => exact hv.1 _ ih

theorem orbIter_cancel (l : List Nat) (hv : ValidPerm l) (k x y : Nat)
    (hx : x < l.length) (hy : y < l.length) :
    orbIter l k x = orbIter l k y → x = y := by
  induction k with
  | zero => exact fun h => h
  | succ k ih =>
    intro h
    exact ih (hv.2 _ _ (orbIter_lt l hv k x hx) (orbIter_lt l hv k y hy) h)

/-- `z` lies on the orbit of `x`. -/
def inOrbit (l : List Nat) (x z : Nat) : Prop := ∃ t, orbIter l t x = z

/-- `m` is the least positive period of `x` under the permutation vector. -/
def IsPeriod (l : List Nat) (x m : Nat) : Prop :=
  0 < m ∧ orbIter l m x = x ∧ ∀ t, 0 < t → t < m → orbIter l t x ≠ x

theorem exists_isPeriod (l : List Nat) (hv : ValidPerm l) (x : Nat) (hx : x < l.length) :
    ∃ m, m ≤ l.length ∧ IsPeriod l x m := by
  have hpos : 0 < l.length := Nat.lt_of_le_of_lt (Nat.zero_le x) hx
  have hcard : Fintype.card (Fin l.length) < Fintype.card (Fin (l.length + 1)) := by simp
  obtain ⟨a, b, hab, he⟩ := Fintype.exists_ne_map_eq_of_card_lt
    (fun t : Fin (l.length + 1) => (⟨orbIter l t.val x, orbIter_lt l hv t.val x hx⟩ :
      Fin l.length)) hcard
  have he' : orbIter l a.val x = orbIter l b.val x := congrArg Fin.val he
  have hex : ∃ d, (0 < d ∧ d ≤ l.length) ∧ orbIter l d x = x := by
    rcases Nat.lt_or_ge a.val b.val with hlt | hge
    · refine ⟨b.val - a.val, ⟨by omega, by omega⟩, ?_⟩
      have h1 : orbIter l b.val x = orbIter l a.val (orbIter l (b.val - a.val) x) := by
        rw [← orbIter_add]
        congr 1
        omega
      have h2 := orbIter_cancel l hv a.val (orbIter l (b.val - a.val) x) x
        (orbIter_lt l hv _ x hx) hx (by rw [← h1, he'])
      exact h2
    · have hlt : b.val < a.val := by
        rcases Nat.lt_or_ge b.val a.val with h | h
        · exact h
        · exact absurd (Fin.ext (by omega)) hab
      refine ⟨a.val - b.val, ⟨by omega, by omega⟩, ?_⟩
      have h1 : orbIter l a.val x = orbIter l b.val (orbIter l (a.val - b.val) x) := by
        rw [← orbIter_add]
        congr 1
        omega
      exact orbIter_cancel l hv b.val (orbIter l (a.val - b.val) x) x
        (orbIter_lt l hv _ x hx) hx (by rw [← h1, ← he'])
  have hex' : ∃ d, 0 < d ∧ orbIter l d x = x := ⟨_, (Classical.choose_spec hex).1.1,
    (Classical.choose_spec hex).2⟩
  refine ⟨Nat.find hex', ?_, (Nat.find_spec hex').1, (Nat.find_spec hex').2, ?_⟩
  · obtain ⟨d, ⟨hd1, hd2⟩, hd3⟩ := hex
    exact le_trans (Nat.find_min' hex' ⟨hd1, hd3⟩) hd2
  · intro t ht1 ht2 ht3
    exact Nat.find_min hex' ht2 ⟨ht1, ht3⟩

theorem isPeriod_unique (l : List Nat) (x m m' : Nat)
    (h : IsPeriod l x m) (h' : IsPeriod l x m') : m = m' := by
  by_contra hne
  rcases Nat.lt_or_ge m m' with hlt | hge
  · exact h'.2.2 m h.1 hlt h.2.1
  · exact h.2.2 m' h'.1 (by omega) h'.2.1

theorem orbIter_mul_period (l : List Nat) (x m : Nat) (hm : IsPeriod l x m) (q : Nat) :
    orbIter l (q * m) x = x := by
  induction q with
  | zero =>
    rw [Nat.zero_mul]
    rfl
  | succ q ih =>
    have h : (q + 1) * m = q * m + m := by ring
    rw [h, orbIter_add, hm.2.1, ih]

theorem orbIter_mod_period (l : List Nat) (x m : Nat) (hm : IsPeriod l x m) (t : Nat) :
    orbIter l t x = orbIter l (t % m) x := by
  conv_lhs => rw [show t = t % m + t / m * m from (Nat.mod_add_div' t m).symm]
  rw [orbIter_add, orbIter_mul_period l x m hm]

theorem orbIter_inj_below (l : List Nat) (hv : ValidPerm l) (x m : Nat)
    (hx : x < l.length) (hm : IsPeriod l x m) :
    ∀ a b, a < m → b < m → orbIter l a x = orbIter l b x → a = b := by
  have key : ∀ a b, a < b → b < m → orbIter l a x = orbIter l b x → False := by
    intro a b hab hbm he
    have h1 : orbIter l b x = orbIter l a (orbIter l (b - a) x) := by
      rw [← orbIter_add]
      congr 1
      omega
    have h2 := orbIter_cancel l hv a x (orbIter l (b - a) x) hx
      (orbIter_lt l hv _ x hx) (by rw [he, h1])
    exact hm.2.2 (b - a) (by omega) (by omega) h2.symm
  intro a b ha hb he
  rcases Nat.lt_trichotomy a b with h | h | h
  · exact absurd he (fun he => key a b h hb he)
  · exact h
  · exact absurd he.symm (fun he => key b a h ha he)

theorem inOrbit_bounded (l : List Nat) (x z m : Nat) (hm : IsPeriod l x m) :
    inOrbit l x z ↔ ∃ t, t < m ∧ orbIter l t x = z := by
  constructor
  · rintro ⟨t, ht⟩
    exact ⟨t % m, Nat.mod_lt _ hm.1, by rw [← orbIter_mod_period l x m hm]; exact ht⟩
  · rintro ⟨t, _, ht⟩
    exact ⟨t, ht⟩

theorem inOrbit_refl (l : List Nat) (x : Nat) : inOrbit l x x := ⟨0, rfl⟩

theorem inOrbit_trans (l : List Nat) (x y z : Nat) :
    inOrbit l x y → inOrbit l y z → inOrbit l x z := by
  rintro ⟨t1, h1⟩ ⟨t2, h2⟩
  exact ⟨t2 + t1, by rw [orbIter_add, h1, h2]⟩

theorem inOrbit_symm (l : List Nat) (hv : ValidPerm l) (x z : Nat) (hx : x < l.length) :
    inOrbit l x z → inOrbit l z x := by
  rintro ⟨t, ht⟩
  obtain ⟨m, _, hm⟩ := exists_isPeriod l hv x hx
  refine ⟨m - t % m, ?_⟩
  have hz : z = orbIter l (t % m) x := by rw [← orbIter_mod_period l x m hm]; exact ht.symm
  rw [hz, ← orbIter_add, show m - t % m + t % m = m by
    have := Nat.mod_lt t hm.1
    omega, hm.2.1]

theorem inOrbit_lt (l : List Nat) (hv : ValidPerm l) (x z : Nat) (hx : x < l.length) :
    inOrbit l x z → z < l.length := by
  rintro ⟨t, ht⟩
  rw [← ht]
  exact orbIter_lt l hv t x hx

theorem isPeriod_transfer (l : List Nat) (x y m : Nat) (hm : IsPeriod l x m)
    (hxy : inOrbit l x y) (hyx : inOrbit l y x) : IsPeriod l y m := by
  obtain ⟨t, ht⟩ := hxy
  obtain ⟨u, hu⟩ := hyx
  refine ⟨hm.1, ?_, ?_⟩
  · rw [← ht, ← orbIter_add, Nat.add_comm, orbIter_add, hm.2.1, ht]
  · intro s hs1 hs2 hsy
    have hsx : orbIter l s x = x := by
      have h1 : orbIter l s x = orbIter l s (orbIter l u y) := by rw [hu]
      rw [h1, ← orbIter_add, Nat.add_comm, orbIter_add, hsy, hu]
    exact hm.2.2 s hs1 hs2 hsx

/-- Bounded search for the least positive period, used to give the period a
computable definition. -/
def periodFrom (l : List Nat) (x : Nat) : Nat → Nat → Nat
  | m, 0 => m
  | m, fuel + 1 => if orbIter l m x = x then m else periodFrom l x (m + 1) fuel

/-- The least positive period of `x` under the permutation vector. -/
def period (l : List Nat) (x : Nat) : Nat := periodFrom l x 1 l.length

theorem periodFrom_finds (l : List Nat) (x m₀ : Nat) (hm : IsPeriod l x m₀) :
    ∀ fuel s, 0 < s → s ≤ m₀ → m₀ < s + fuel → periodFrom l x s fuel = m₀ := by
  intro fuel
  induction fuel with
  | zero => intro s _ h2 h3; omega
  | succ f ih =>
    intro s h1 h2 h3
    rw [periodFrom]
    split
    · rename_i horb
      rcases Nat.lt_or_ge s m₀ with hlt | hge
      · exact absurd horb (hm.2.2 s h1 hlt)
      · omega
    · rename_i horb
      have hne : s ≠ m₀ := by
        intro he
        exact horb (he ▸ hm.2.1)
      exact ih (s + 1) (by omega) (by omega) (by omega)

theorem period_isPeriod (l : List Nat) (hv : ValidPerm l) (x : Nat) (hx : x < l.length) :
    IsPeriod l x (period l x) := by
  obtain ⟨m₀, hle, hm⟩ := exists_isPeriod l hv x hx
  have he : period l x = m₀ :=
    periodFrom_finds l x m₀ hm l.length 1 (by omega) hm.1 (by omega)
  rw [he]
  exact hm

theorem period_le_length (l : List Nat) (hv : ValidPerm l) (x : Nat) (hx : x < l.length) :
    period l x ≤ l.length := by
  obtain ⟨m₀, hle, hm⟩ := exists_isPeriod l hv x hx
  rw [isPeriod_unique l x (period l x) m₀ (period_isPeriod l hv x hx) hm]
  exact hle

/-- Running the inner cycle walk from the `s`-th element of a fresh orbit:
it marks the remainder of the orbit and counts its size. -/
theorem cycleWalk_run (l : List Nat) (hv : ValidPerm l) (x m : Nat) (hx : x < l.length)
    (hm : IsPeriod l x m)
    (v0 : List Bool) (hfresh : ∀ t, t < m → v0.getD (orbIter l t x) true = false) :
    ∀ k s visited, s + k = m → visited.length = l.length →
      (∀ z, z < l.length →
        (visited.getD z true = true ↔
          (v0.getD z true = true ∨ ∃ t, t < s ∧ orbIter l t x = z))) →
      ∀ fuel, k ≤ fuel →
        (cycleWalk l visited (orbIter l s x) fuel).1 = k ∧
        ∀ z, z < l.length →
          ((cycleWalk l visited (orbIter l s x) fuel).2.getD z true = true ↔
            (v0.getD z true = true ∨ ∃ t, t < m ∧ orbIter l t x = z)) := by
  intro k
  induction k with
  | zero =>
    intro s visited hs hlen hchar fuel _
    have hsm : s = m := by omega
    have hxx : orbIter l s x = x := by rw [hsm]; exact hm.2.1
    have hxlt : orbIter l s x < l.length := by rw [hxx]; exact hx
    have hm1 : 0 < m := hm.1
    have hmark : visited.getD (orbIter l s x) true = true := by
      rw [hchar _ hxlt]
      right
      exact ⟨0, by omega, hxx.symm⟩
    have heval : cycleWalk l visited (orbIter l s x) fuel = (0, visited) := by
      cases fuel with
      | zero => rfl
      | succ f =>
        rw [cycleWalk, if_pos hmark]
    rw [heval]
    refine ⟨rfl, ?_⟩
    intro z hz
    rw [hchar z hz]
    constructor
    · rintro (h | ⟨t, ht, he⟩)
      · exact Or.inl h
      · exact Or.inr ⟨t, by omega, he⟩
    · rintro (h | ⟨t, ht, he⟩)
      · exact Or.inl h
      · exact Or.inr ⟨t, by omega, he⟩
  | succ k ih =>
    intro s visited hs hlen hchar fuel hfuel
    have hsm : s < m := by omega
    have hjlt : orbIter l s x < l.length := orbIter_lt l hv s x hx
    have hunmark : visited.getD (orbIter l s x) true = false := by
      cases hb : visited.getD (orbIter l s x) true with
      | false => rfl
      | true =>
        exfalso
        rcases (hchar _ hjlt).1 hb with h0 | ⟨t, ht, he⟩
        · rw [hfresh s hsm] at h0
          exact absurd h0 (by decide)
        · have := orbIter_inj_below l hv x m hx hm t s (by omega) hsm he
          omega
    cases fuel with
    | zero => omega
    | succ f =>
      rw [cycleWalk, if_neg (by rw [hunmark]; decide)]
      have hnext : lget l (orbIter l s x) = orbIter l (s + 1) x := rfl
      have hchar' : ∀ z, z < l.length →
          ((visited.set (orbIter l s x) true).getD z true = true ↔
            (v0.getD z true = true ∨ ∃ t, t < s + 1 ∧ orbIter l t x = z)) := by
        intro z hz
        rw [getD_set_spec]
        by_cases hez : z = orbIter l s x
        · rw [if_pos ⟨hez, by omega⟩]
          simp only [true_iff]
          exact Or.inr ⟨s, by omega, hez.symm⟩
        · rw [if_neg (by intro hcon; exact hez hcon.1), hchar z hz]
          constructor
          · rintro (h | ⟨t, ht, he⟩)
            · exact Or.inl h
            · exact Or.inr ⟨t, by omega, he⟩
          · rintro (h | ⟨t, ht, he⟩)
            · exact Or.inl h
            · refine Or.inr ⟨t, ?_, he⟩
              rcases Nat.lt_or_ge t s with h' | h'
              · exact h'
              · exfalso
                have hts : t = s := by omega
                exact hez (by rw [← he, hts])
      have hlen' : (visited.set (orbIter l s x) true).length = l.length := by
        rw [List.length_set]
        exact hlen
      obtain ⟨h1, h2⟩ := ih (s + 1) (visited.set (orbIter l s x) true) (by omega) hlen'
        hchar' f (by omega)
      rw [hnext]
      exact ⟨by simpa using h1, h2⟩

/-- Running the inner cycle walk from the start of a fresh orbit. -/
theorem cycleWalk_spec (l : List Nat) (hv : ValidPerm l) (x m : Nat) (hx : x < l.length)
    (hm : IsPeriod l x m) (v0 : List Bool) (hlen : v0.length = l.length)
    (hfresh : ∀ t, t < m → v0.getD (orbIter l t x) true = false)
    (fuel : Nat) (hfuel : m ≤ fuel) :
    (cycleWalk l v0 x fuel).1 = m ∧
    (cycleWalk l v0 x fuel).2.length = l.length ∧
    ∀ z, z < l.length →
      ((cycleWalk l v0 x fuel).2.getD z true = true ↔
        (v0.getD z true = true ∨ inOrbit l x z)) := by
  have h := cycleWalk_run l hv x m hx hm v0 hfresh m 0 v0 (by omega) hlen
    (by
      intro z hz
      constructor
      · intro hb
        exact Or.inl hb
      · rintro (hb | ⟨t, ht, _⟩)
        · exact hb
        · omega)
    fuel hfuel
  have h0 : orbIter l 0 x = x := rfl
  rw [h0] at h
  refine ⟨h.1, ?_, ?_⟩
  · rw [cycleWalk_length]
    exact hlen
  · intro z hz
    rw [h.2 z hz, inOrbit_bounded l x z m hm]

/-- Invariant of the outer loop of `max_cycle_len`: the marks are exactly
the orbits of the already-processed indices, and the accumulator is the
maximum of their periods. -/
theorem mclLoop_run (l : List Nat) (hv : ValidPerm l) :
    ∀ k i visited maxLen,
      i + k = l.length → visited.length = l.length →
      (∀ z, z < l.length →
        (visited.getD z true = true ↔ ∃ y, y < i ∧ inOrbit l y z)) →
      (∀ y, y < i → period l y ≤ maxLen) →
      (maxLen = 0 ∨ ∃ y, y < l.length ∧ period l y = maxLen) →
      (∀ y, y < l.length → period l y ≤ mclLoop l (List.range' i k) visited maxLen) ∧
      (mclLoop l (List.range' i k) visited maxLen = 0 ∨
        ∃ y, y < l.length ∧ period l y = mclLoop l (List.range' i k) visited maxLen) := by
  intro k
  induction k with
  | zero =>
    intro i visited maxLen hik hlen hchar hbound hdisj
    have hin : i = l.length := by omega
    simp only [List.range', mclLoop]
    exact ⟨fun y hy => hbound y (by omega), hdisj⟩
  | succ k ih =>
    intro i visited maxLen hik hlen hchar hbound hdisj
    have hilt : i < l.length := by omega
    rw [List.range'_succ]
    cases hvis : visited.getD i true with
    | true =>
      have hstep : mclLoop l (i :: List.range' (i + 1) k) visited maxLen =
          mclLoop l (List.range' (i + 1) k) visited maxLen := by
        rw [mclLoop, if_pos hvis]
      rw [hstep]
      obtain ⟨y, hy, hyo⟩ := (hchar i hilt).1 hvis
      have hylt : y < l.length := by omega
      refine ih (i + 1) visited maxLen (by omega) hlen ?_ ?_ hdisj
      · intro z hz
        rw [hchar z hz]
        constructor
        · rintro ⟨y', hy', ho⟩
          exact ⟨y', by omega, ho⟩
        · rintro ⟨y', hy', ho⟩
          rcases Nat.lt_or_ge y' i with h' | h'
          · exact ⟨y', h', ho⟩
          · have hy'i : y' = i := by omega
            exact ⟨y, hy, inOrbit_trans l y i z hyo (hy'i ▸ ho)⟩
      · intro y' hy'
        rcases Nat.lt_or_ge y' i with h' | h'
        · exact hbound y' h'
        · have hy'i : y' = i := by omega
          rw [hy'i]
          have hiy : inOrbit l i y := inOrbit_symm l hv y i hylt hyo
          have htr := isPeriod_transfer l y i (period l y)
            (period_isPeriod l hv y hylt) hyo hiy
          rw [isPeriod_unique l i (period l i) (period l y)
            (period_isPeriod l hv i hilt) htr]
          exact hbound y hy
    | false =>
      have hstep : mclLoop l (i :: List.range' (i + 1) k) visited maxLen =
          mclLoop l (List.range' (i + 1) k) (cycleWalk l visited i l.length).2
            (max maxLen (cycleWalk l visited i l.length).1) := by
        rw [mclLoop, if_neg (by rw [hvis]; decide)]
      rw [hstep]
      have hfreshi : ¬∃ y, y < i ∧ inOrbit l y i := by
        intro hcon
        rw [(hchar i hilt).2 hcon] at hvis
        exact absurd hvis (by decide)
      have hper := period_isPeriod l hv i hilt
      have hfresh : ∀ t, t < period l i → visited.getD (orbIter l t i) true = false := by
        intro t ht
        cases hb : visited.getD (orbIter l t i) true with
        | false => rfl
        | true =>
          exfalso
          have hzlt : orbIter l t i < l.length := orbIter_lt l hv t i hilt
          obtain ⟨y, hy, hyo⟩ := (hchar _ hzlt).1 hb
          have hoi : inOrbit l (orbIter l t i) i :=
            inOrbit_symm l hv i (orbIter l t i) hilt ⟨t, rfl⟩
          exact hfreshi ⟨y, hy, inOrbit_trans l y (orbIter l t i) i hyo hoi⟩
      obtain ⟨hcount, hwlen, hwchar⟩ := cycleWalk_spec l hv i (period l i) hilt hper
        visited hlen hfresh l.length (period_le_length l hv i hilt)
      rw [hcount]
      refine ih (i + 1) (cycleWalk l visited i l.length).2 (max maxLen (period l i))
        (by omega) hwlen ?_ ?_ ?_
      · intro z hz
        rw [hwchar z hz]
        constructor
        · rintro (hb | ho)
          · obtain ⟨y, hy, hyo⟩ := (hchar z hz).1 hb
            exact ⟨y, by omega, hyo⟩
          · exact ⟨i, by omega, ho⟩
        · rintro ⟨y, hy, hyo⟩
          rcases Nat.lt_or_ge y i with h' | h'
          · exact Or.inl ((hchar z hz).2 ⟨y, h', hyo⟩)
          · have hyi : y = i := by omega
            exact Or.inr (hyi ▸ hyo)
      · intro y hy
        rcases Nat.lt_or_ge y i with h' | h'
        · exact le_trans (hbound y h') (Nat.le_max_left _ _)
        · have hyi : y = i := by omega
          subst hyi
          exact Nat.le_max_right _ _
      · rcases Nat.le_total (period l i) maxLen with h' | h'
        · rw [Nat.max_eq_left h']
          rcases hdisj with h0 | hex
          · exfalso
            have := hper.1
            omega
          · exact Or.inr hex
        · rw [Nat.max_eq_right h']
          exact Or.inr ⟨i, hilt, rfl⟩

/-- `max_cycle_len` of a valid permutation vector is the maximum orbit
period (0 for the empty vector). -/
theorem maxCycleLen_spec (l : List Nat) (hv : ValidPerm l) :
    (∀ y, y < l.length → period l y ≤ maxCycleLen l) ∧
    (maxCycleLen l = 0 ∨ ∃ y, y < l.length ∧ period l y = maxCycleLen l) := by
  have h := mclLoop_run l hv l.length 0 (List.replicate l.length false) 0
    (by omega) (by simp)
    (by
      intro z hz
      rw [getD_replicate, if_pos hz]
      constructor
      · intro hb
        exact absurd hb (by decide)
      · rintro ⟨y, hy, _⟩
        omega)
    (by intro y hy; omega)
    (Or.inl rfl)
  rw [maxCycleLen, List.range_eq_range' l.length]
  exact h

/-- A longest cycle of at most 2 forces the permutation to be an involution. -/
theorem involution_of_mcl (l : List Nat) (hv : ValidPerm l) (h2 : maxCycleLen l ≤ 2) :
    ∀ x, x < l.length → lget l (lget l x) = x := by
  intro x hx
  have hper := period_isPeriod l hv x hx
  have hle : period l x ≤ 2 := le_trans ((maxCycleLen_spec l hv).1 x hx) h2
  have hpos := hper.1
  rcases (by omega : period l x = 1 ∨ period l x = 2) with h1 | h1
  · have he : orbIter l 1 x = x := by rw [← h1]; exact hper.2.1
    have he' : lget l x = x := he
    rw [he', he']
  · have he : orbIter l 2 x = x := by rw [← h1]; exact hper.2.1
    exact he

/-- A fixed-point-free involution on a nonempty range has longest cycle
exactly 2. -/
theorem mcl_of_fpf_involution (l : List Nat) (hv : ValidPerm l) (hn : 0 < l.length)
    (hinv : ∀ x, x < l.length → lget l (lget l x) = x ∧ lget l x ≠ x) :
    maxCycleLen l = 2 := by
  have hall : ∀ x, x < l.length → period l x = 2 := by
    intro x hx
    have hp2 : IsPeriod l x 2 := by
      refine ⟨by omega, (hinv x hx).1, ?_⟩
      intro t ht1 ht2
      have ht : t = 1 := by omega
      subst ht
      exact (hinv x hx).2
    exact isPeriod_unique l x (period l x) 2 (period_isPeriod l hv x hx) hp2
  obtain ⟨hbound, hdisj⟩ := maxCycleLen_spec l hv
  rcases hdisj with h0 | ⟨y, hy, hey⟩
  · exfalso
    have h1 := hbound 0 hn
    rw [hall 0 hn] at h1
    omega
  · rw [← hey, hall y hy]

/-- For a nonempty valid permutation vector, the longest cycle length is
between 1 and the size. -/
theorem maxCycleLen_bounds (l : List Nat) (hv : ValidPerm l) (hn : 0 < l.length) :
    1 ≤ maxCycleLen l ∧ maxCycleLen l ≤ l.length := by
  obtain ⟨hbound, hdisj⟩ := maxCycleLen_spec l hv
  have h1 : 1 ≤ maxCycleLen l := by
    have := hbound 0 hn
    have := (period_isPeriod l hv 0 hn).1
    omega
  refine ⟨h1, ?_⟩
  rcases hdisj with h0 | ⟨y, hy, hey⟩
  · omega
  · rw [← hey]
    exact period_le_length l hv y hy

/-! ### Cycle decomposition of `enigma-crack` -/

/-- The orbit of `r` as a finite set: its first `period` iterates. -/
def orbFin (l : List Nat) (r : Nat) : Finset Nat :=
  Finset.image (fun t => orbIter l t r) (Finset.range (period l r))

theorem mem_orbFin (l : List Nat) (hv : ValidPerm l) (r : Nat) (hr : r < l.length)
    (z : Nat) : z ∈ orbFin l r ↔ inOrbit l r z := by
  rw [orbFin, inOrbit_bounded l r z (period l r) (period_isPeriod l hv r hr)]
  simp [Finset.mem_image, Finset.mem_range]

theorem card_orbFin (l : List Nat) (hv : ValidPerm l) (r : Nat) (hr : r < l.length) :
    (orbFin l r).card = period l r := by
  have hinj : Set.InjOn (fun t => orbIter l t r) (Finset.range (period l r)) := by
    intro a ha b hb he
    simp only [Finset.coe_range, Set.mem_Iio] at ha hb
    exact orbIter_inj_below l hv r (period l r) hr (period_isPeriod l hv r hr) a b ha hb he
  rw [orbFin, Finset.card_image_of_injOn hinj, Finset.card_range]

/-- Running the inner decomposition walk from the `s`-th element of the
orbit of `i`: it marks the rest of the orbit (except `i` itself) and adds
the remaining orbit size to the counter. -/
theorem decompWalk_run (l : List Nat) (hv : ValidPerm l) (i m : Nat) (hi : i < l.length)
    (hm : IsPeriod l i m) :
    ∀ k s visited cl, 0 < s → s + k = m → visited.length = l.length →
      ∀ fuel, k ≤ fuel →
        (decompWalk l i visited (orbIter l s i) cl fuel).1 = cl + k ∧
        (decompWalk l i visited (orbIter l s i) cl fuel).2.length = l.length ∧
        ∀ z, z < l.length →
          ((decompWalk l i visited (orbIter l s i) cl fuel).2.getD z true = true ↔
            (visited.getD z true = true ∨ ∃ t, s ≤ t ∧ t < m ∧ orbIter l t i = z)) := by
  intro k
  induction k with
  | zero =>
    intro s visited cl hs0 hs hlen fuel _
    have hsm : s = m := by omega
    have hxx : orbIter l s i = i := by rw [hsm]; exact hm.2.1
    have heval : decompWalk l i visited (orbIter l s i) cl fuel = (cl, visited) := by
      cases fuel with
      | zero => rfl
      | succ f => rw [decompWalk, if_pos hxx]
    rw [heval]
    refine ⟨rfl, hlen, ?_⟩
    intro z hz
    constructor
    · intro hb
      exact Or.inl hb
    · rintro (hb | ⟨t, ht1, ht2, _⟩)
      · exact hb
      · omega
  | succ k ih =>
    intro s visited cl hs0 hs hlen fuel hfuel
    have hsm : s < m := by omega
    have hne : orbIter l s i ≠ i := by
      intro he
      have h0 : orbIter l s i = orbIter l 0 i := he
      have := orbIter_inj_below l hv i m hi hm s 0 hsm hm.1 h0
      omega
    have hjlt : orbIter l s i < l.length := orbIter_lt l hv s i hi
    cases fuel with
    | zero => omega
    | succ f =>
      rw [decompWalk, if_neg hne]
      have hnext : lget l (orbIter l s i) = orbIter l (s + 1) i := rfl
      have hlen' : (visited.set (orbIter l s i) true).length = l.length := by
        rw [List.length_set]
        exact hlen
      obtain ⟨h1, h2, h3⟩ := ih (s + 1) (visited.set (orbIter l s i) true) (cl + 1)
        (by omega) (by omega) hlen' f (by omega)
      rw [hnext]
      refine ⟨by omega, h2, ?_⟩
      intro z hz
      rw [h3 z hz, getD_set_spec]
      by_cases hez : z = orbIter l s i
      · rw [if_pos ⟨hez, by omega⟩]
        constructor
        · intro _
          exact Or.inr ⟨s, le_refl s, hsm, hez.symm⟩
        · intro _
          exact Or.inl rfl
      · rw [if_neg (by intro hcon; exact hez hcon.1)]
        constructor
        · rintro (hb | ⟨t, ht1, ht2, ht3⟩)
          · exact Or.inl hb
          · exact Or.inr ⟨t, by omega, ht2, ht3⟩
        · rintro (hb | ⟨t, ht1, ht2, ht3⟩)
          · exact Or.inl hb
          · refine Or.inr ⟨t, ?_, ht2, ht3⟩
            rcases Nat.lt_or_ge s t with h' | h'
            · omega
            · exfalso
              have hts : t = s := by omega
              exact hez (by rw [← ht3, hts])

/-- The full decomposition walk for one unvisited index: counts the orbit
size and marks the orbit minus its representative. -/
theorem decompWalk_spec (l : List Nat) (hv : ValidPerm l) (i m : Nat) (hi : i < l.length)
    (hm : IsPeriod l i m) (visited : List Bool) (hlen : visited.length = l.length)
    (fuel : Nat) (hfuel : m ≤ fuel + 1) :
    (decompWalk l i visited (lget l i) 1 fuel).1 = m ∧
    (decompWalk l i visited (lget l i) 1 fuel).2.length = l.length ∧
    ∀ z, z < l.length →
      ((decompWalk l i visited (lget l i) 1 fuel).2.getD z true = true ↔
        (visited.getD z true = true ∨ (inOrbit l i z ∧ z ≠ i))) := by
  have h1 : lget l i = orbIter l 1 i := rfl
  have hm1 : 0 < m := hm.1
  obtain ⟨ha, hb, hc⟩ := decompWalk_run l hv i m hi hm (m - 1) 1 visited 1
    (by omega) (by omega) hlen fuel (by omega)
  rw [h1]
  refine ⟨by omega, hb, ?_⟩
  intro z hz
  rw [hc z hz]
  constructor
  · rintro (hv' | ⟨t, ht1, ht2, ht3⟩)
    · exact Or.inl hv'
    · refine Or.inr ⟨⟨t, ht3⟩, ?_⟩
      intro hzi
      have h0 : orbIter l t i = orbIter l 0 i := by rw [ht3, hzi]; rfl
      have := orbIter_inj_below l hv i m hi hm t 0 ht2 hm1 h0
      omega
  · rintro (hv' | ⟨⟨t, ht⟩, hzi⟩)
    · exact Or.inl hv'
    · refine Or.inr ⟨t % m, ?_, Nat.mod_lt _ hm1, ?_⟩
      · rcases Nat.eq_zero_or_pos (t % m) with h0 | h0
        · exfalso
          apply hzi
          rw [← ht, orbIter_mod_period l i m hm, h0]
          rfl
        · omega
      · rw [← orbIter_mod_period l i m hm]
        exact ht

/-- Invariant of the outer loop of `get_cycle_decomposition`: the marks are
the processed orbits minus their representatives, and the emitted cycle
lengths account for everything outside the unprocessed orbits. -/
theorem cdLoop_run (l : List Nat) (hv : ValidPerm l) :
    ∀ k i visited (R : Finset Nat),
      i + k = l.length → visited.length = l.length →
      (∀ r, r ∈ R → r < i) →
      (∀ z, z < l.length →
        (visited.getD z true = true ↔ ∃ r, r ∈ R ∧ inOrbit l r z ∧ z ≠ r)) →
      (∀ y, y < i → ∃ r, r ∈ R ∧ inOrbit l r y) →
      (∀ r, r ∈ R → ∀ r', r' ∈ R → r ≠ r' → ¬inOrbit l r r') →
      (cdLoop l (List.range' i k) visited).sum + (R.biUnion (orbFin l)).card = l.length := by
  intro k
  induction k with
  | zero =>
    intro i visited R hik hlen hR hchar hcov hdisj
    have hin : i = l.length := by omega
    have hbu : R.biUnion (orbFin l) = Finset.range l.length := by
      apply Finset.ext
      intro z
      rw [Finset.mem_biUnion, Finset.mem_range]
      constructor
      · rintro ⟨r, hr, hz⟩
        have hrlt : r < l.length := by
          have := hR r hr
          omega
        exact inOrbit_lt l hv r z hrlt ((mem_orbFin l hv r hrlt z).1 hz)
      · intro hz
        obtain ⟨r, hr, ho⟩ := hcov z (by omega)
        have hrlt : r < l.length := by
          have := hR r hr
          omega
        exact ⟨r, hr, (mem_orbFin l hv r hrlt z).2 ho⟩
    simp only [List.range', cdLoop, List.sum_nil, Nat.zero_add]
    rw [hbu, Finset.card_range]
  | succ k ih =>
    intro i visited R hik hlen hR hchar hcov hdisj
    have hilt : i < l.length := by omega
    rw [List.range'_succ]
    cases hvis : visited.getD i true with
    | true =>
      have hstep : cdLoop l (i :: List.range' (i + 1) k) visited =
          cdLoop l (List.range' (i + 1) k) visited := by
        rw [cdLoop, if_pos hvis]
      rw [hstep]
      obtain ⟨r0, hr0, hro, _⟩ := (hchar i hilt).1 hvis
      refine ih (i + 1) visited R (by omega) hlen ?_ hchar ?_ hdisj
      · intro r hr
        have := hR r hr
        omega
      · intro y hy
        rcases Nat.lt_or_ge y i with h' | h'
        · exact hcov y h'
        · have hyi : y = i := by omega
          exact ⟨r0, hr0, hyi ▸ hro⟩
    | false =>
      have hfreshR : ∀ r, r ∈ R → ¬inOrbit l r i := by
        intro r hr ho
        have hne : i ≠ r := by
          have := hR r hr
          omega
        rw [(hchar i hilt).2 ⟨r, hr, ho, hne⟩] at hvis
        exact absurd hvis (by decide)
      have hper := period_isPeriod l hv i hilt
      have hmle : period l i ≤ l.length := period_le_length l hv i hilt
      obtain ⟨hw1, hw2, hw3⟩ := decompWalk_spec l hv i (period l i) hilt hper visited hlen
        l.length (by omega)
      have hstep : cdLoop l (i :: List.range' (i + 1) k) visited =
          (decompWalk l i visited (lget l i) 1 l.length).1 ::
            cdLoop l (List.range' (i + 1) k)
              (decompWalk l i visited (lget l i) 1 l.length).2 := by
        rw [cdLoop, if_neg (by rw [hvis]; decide)]
      rw [hstep, List.sum_cons, hw1]
      have hinotR : i ∉ R := by
        intro hcon
        have := hR i hcon
        omega
      have hih := ih (i + 1) (decompWalk l i visited (lget l i) 1 l.length).2
        (insert i R) (by omega) hw2 ?_ ?_ ?_ ?_
      · have hcard : ((insert i R).biUnion (orbFin l)).card =
            period l i + (R.biUnion (orbFin l)).card := by
          rw [Finset.biUnion_insert]
          rw [Finset.card_union_of_disjoint, card_orbFin l hv i hilt]
          rw [Finset.disjoint_left]
          intro z hz hzR
          obtain ⟨r, hr, hzr⟩ := Finset.mem_biUnion.1 hzR
          have hrlt : r < l.length := by
            have := hR r hr
            omega
          have hoz : inOrbit l i z := (mem_orbFin l hv i hilt z).1 hz
          have hrz : inOrbit l r z := (mem_orbFin l hv r hrlt z).1 hzr
          have hzi : inOrbit l z i := inOrbit_symm l hv i z hilt hoz
          exact hfreshR r hr (inOrbit_trans l r z i hrz hzi)
        omega
      · intro r hr
        rcases Finset.mem_insert.1 hr with h' | h'
        · omega
        · have := hR r h'
          omega
      · intro z hz
        rw [hw3 z hz]
        constructor
        · rintro (hb | ⟨ho, hne⟩)
          · obtain ⟨r, hr, hro, hnr⟩ := (hchar z hz).1 hb
            exact ⟨r, Finset.mem_insert_of_mem hr, hro, hnr⟩
          · exact ⟨i, Finset.mem_insert_self i R, ho, hne⟩
        · rintro ⟨r, hr, hro, hnr⟩
          rcases Finset.mem_insert.1 hr with h' | h'
          · exact Or.inr ⟨h' ▸ hro, h' ▸ hnr⟩
          · exact Or.inl ((hchar z hz).2 ⟨r, h', hro, hnr⟩)
      · intro y hy
        rcases Nat.lt_or_ge y i with h' | h'
        · obtain ⟨r, hr, hro⟩ := hcov y h'
          exact ⟨r, Finset.mem_insert_of_mem hr, hro⟩
        · have hyi : y = i := by omega
          exact ⟨i, Finset.mem_insert_self i R, hyi ▸ inOrbit_refl l i⟩
      · intro r hr r' hr' hne
        rcases Finset.mem_insert.1 hr with h1 | h1 <;>
          rcases Finset.mem_insert.1 hr' with h2 | h2
        · exact absurd (h1.trans h2.symm) hne
        · intro ho
          have hr'lt : r' < l.length := by
            have := hR r' h2
            omega
          have := inOrbit_symm l hv r r' (h1 ▸ hilt) ho
          exact hfreshR r' h2 (h1 ▸ this)
        · exact h2 ▸ hfreshR r h1
        · exact hdisj r h1 r' h2 hne

/-- `get_cycle_decomposition` of a valid permutation vector sums to its
size: the orbits partition the index range. -/
theorem getCycleDecomposition_sum (l : List Nat) (hv : ValidPerm l) :
    (getCycleDecomposition l).sum = l.length := by
  have h := cdLoop_run l hv l.length 0 (List.replicate l.length false) ∅
    (by omega) (by simp)
    (by intro r hr; exact absurd hr (Finset.not_mem_empty r))
    (by
      intro z hz
      rw [getD_replicate, if_pos hz]
      constructor
      · intro hb
        exact absurd hb (by decide)
      · rintro ⟨r, hr, _⟩
        exact absurd hr (Finset.not_mem_empty r))
    (by intro y hy; omega)
    (by intro r hr; exact absurd hr (Finset.not_mem_empty r))
  rw [getCycleDecomposition, List.range_eq_range' l.length]
  simpa using h

/-! ### Validity of constructed permutations, and the derived inverse -/

theorem hasDupVal_eq_false_iff (l : List Nat) : hasDupVal l = false ↔ l.Nodup := by
  induction l with
  | nil => simp [hasDupVal]
  | cons x xs ih => simp [hasDupVal, List.nodup_cons, ih]

theorem lget_eq_get (l : List Nat) (i : Nat) (h : i < l.length) :
    lget l i = l.get ⟨i, h⟩ := by
  simp [lget, List.getD_eq_getElem?_getD, List.getElem?_eq_getElem h]

theorem fromPerm_some (l : List Nat) (p : Permutation)
    (h : Permutation.fromPerm l = some p) :
    p = ⟨l⟩ ∧ l.length ≤ 255 ∧ ValidPerm l := by
  rw [Permutation.fromPerm] at h
  split_ifs at h with h1 h2 h3
  refine ⟨(Option.some.inj h).symm, by omega, ?_, ?_⟩
  · intro i hi
    have hmem : lget l i ∈ l := by
      rw [lget_eq_get l i hi]
      exact List.get_mem l i hi
    have hnot : ¬∃ x ∈ l, decide (l.length ≤ x) = true :=
      fun hcon => h2 (List.any_eq_true.2 hcon)
    push_neg at hnot
    have := hnot (lget l i) hmem
    simp at this
    exact this
  · intro i j hi hj he
    have h3' : hasDupVal l = false := by
      cases hb : hasDupVal l
      · rfl
      · exact absurd hb h3
    have hnd : l.Nodup := (hasDupVal_eq_false_iff l).1 h3'
    have hinj := List.nodup_iff_injective_get.1 hnd
    have : (⟨i, hi⟩ : Fin l.length) = ⟨j, hj⟩ := by
      apply hinj
      rw [← lget_eq_get l i hi, ← lget_eq_get l j hj]
      exact he
    exact congrArg Fin.val this

theorem valid_surj (l : List Nat) (hv : ValidPerm l) (v : Nat) (hvlt : v < l.length) :
    ∃ u, u < l.length ∧ lget l u = v := by
  have hinj : Function.Injective (fun u : Fin l.length =>
      (⟨lget l u.val, hv.1 u.val u.2⟩ : Fin l.length)) := by
    intro a b he
    have : lget l a.val = lget l b.val := congrArg Fin.val he
    exact Fin.ext (hv.2 a.val b.val a.2 b.2 this)
  have hsurj := Finite.surjective_of_injective hinj
  obtain ⟨u, hu⟩ := hsurj ⟨v, hvlt⟩
  exact ⟨u.val, u.2, congrArg Fin.val hu⟩

theorem scatter_fold_length (l : List Nat) (idx : List Nat) :
    ∀ acc : List Nat,
      (idx.foldl (fun acc i => acc.set (lget l i) i) acc).length = acc.length := by
  induction idx with
  | nil => intro acc; rfl
  | cons i rest ih =>
    intro acc
    rw [List.foldl_cons, ih, List.length_set]

theorem scatter_fold_untouched (l : List Nat) :
    ∀ (m k : Nat) (acc : List Nat) (j : Nat),
      (∀ i, k ≤ i → i < k + m → lget l i ≠ j) →
      ((List.range' k m).foldl (fun acc i => acc.set (lget l i) i) acc).getD j 0 =
        acc.getD j 0 := by
  intro m
  induction m with
  | zero =>
    intro k acc j _
    rfl
  | succ m ih =>
    intro k acc j hne
    rw [List.range'_succ, List.foldl_cons]
    rw [ih (k + 1) _ j (fun i h1 h2 => hne i (by omega) (by omega))]
    rw [getD_set_spec]
    rw [if_neg]
    intro hcon
    exact hne k (by omega) (by omega) hcon.1.symm

theorem scatter_fold_hit (l : List Nat) (hv : ValidPerm l) :
    ∀ (m k : Nat) (acc : List Nat) (u : Nat),
      acc.length = l.length → k ≤ u → u < k + m → k + m ≤ l.length →
      ((List.range' k m).foldl (fun acc i => acc.set (lget l i) i) acc).getD
        (lget l u) 0 = u := by
  intro m
  induction m with
  | zero =>
    intro k acc u _ h1 h2 _
    omega
  | succ m ih =>
    intro k acc u hlen h1 h2 h3
    rw [List.range'_succ, List.foldl_cons]
    rcases Nat.eq_or_lt_of_le h1 with heq | hlt
    · rw [← heq]
      rw [scatter_fold_untouched l m (k + 1) _ (lget l k) ?_]
      · rw [getD_set_spec, if_pos]
        refine ⟨rfl, ?_⟩
        rw [hlen]
        exact hv.1 k (by omega)
      · intro i hi1 hi2 hcon
        have := hv.2 i k (by omega) (by omega) hcon
        omega
    · exact ih (k + 1) _ u (by rw [List.length_set]; exact hlen) hlt (by omega) (by omega)

theorem inverse_perm_eq (l : List Nat) :
    (Permutation.inverse ⟨l⟩).perm =
      (List.range' 0 l.length).foldl (fun acc i => acc.set (lget l i) i)
        (List.replicate l.length 0) := by
  rw [Permutation.inverse, ← List.range_eq_range']

theorem inverse_length (l : List Nat) :
    (Permutation.inverse ⟨l⟩).perm.length = l.length := by
  rw [inverse_perm_eq, scatter_fold_length, List.length_replicate]

theorem inverse_lget (l : List Nat) (hv : ValidPerm l) (u : Nat) (hu : u < l.length) :
    lget (Permutation.inverse ⟨l⟩).perm (lget l u) = u := by
  rw [inverse_perm_eq]
  exact scatter_fold_hit l hv l.length 0 (List.replicate l.length 0) u
    (List.length_replicate _ _) (by omega) (by omega) (by omega)

theorem inverse_lget_right (l : List Nat) (hv : ValidPerm l) (v : Nat)
    (hvlt : v < l.length) :
    lget (Permutation.inverse ⟨l⟩).perm v < l.length ∧
      lget l (lget (Permutation.inverse ⟨l⟩).perm v) = v := by
  obtain ⟨u, hu, he⟩ := valid_surj l hv v hvlt
  have h1 : lget (Permutation.inverse ⟨l⟩).perm v = u := by
    rw [← he]
    exact inverse_lget l hv u hu
  rw [h1, he]
  exact ⟨hu, rfl⟩

/-! ### Rotator mapping arithmetic -/

theorem mapWith_val (r : Rotator) (q : Permutation) (x : Nat) :
    r.mapWith q ⟨x⟩ =
      ⟨if r.offset ≤ q.map ((x + r.offset) % 26) then
          q.map ((x + r.offset) % 26) - r.offset
        else q.map ((x + r.offset) % 26) + 26 - r.offset⟩ := by
  simp only [Rotator.mapWith, RUNE_SET_SIZE]
  split <;> rfl

theorem mapWith_val_norm (r : Rotator) (q : Permutation) (x : Nat) (ho : r.offset < 26)
    (hq : q.map ((x + r.offset) % 26) < 26) :
    r.mapWith q ⟨x⟩ = ⟨(q.map ((x + r.offset) % 26) + 26 - r.offset) % 26⟩ := by
  rw [mapWith_val]
  congr 1
  split_ifs with h
  · omega
  · omega

theorem inverse_map (l : List Nat) (hv : ValidPerm l) (u : Nat) (hu : u < l.length) :
    Permutation.map (Permutation.inverse ⟨l⟩) (Permutation.map ⟨l⟩ u) = u :=
  inverse_lget l hv u hu

theorem inverse_map_right (l : List Nat) (hv : ValidPerm l) (v : Nat) (hvlt : v < l.length) :
    Permutation.map (Permutation.inverse ⟨l⟩) v < l.length ∧
      Permutation.map ⟨l⟩ (Permutation.map (Permutation.inverse ⟨l⟩) v) = v :=
  inverse_lget_right l hv v hvlt

/-- A rotator as produced by `Rotator::new` from a validly constructed
permutation: valid 26-wiring, derived inverse, reduced offset. -/
def GoodRot (r : Rotator) : Prop :=
  ∃ l, ValidPerm l ∧ l.length = 26 ∧ r.permForward = ⟨l⟩ ∧
    r.permBackward = Permutation.inverse ⟨l⟩ ∧ r.offset < 26

theorem rotatorNew_good (lr : List Nat) (p : Permutation) (o : Nat) (r : Rotator)
    (hp : Permutation.fromPerm lr = some p) (hr : Rotator.new p o = some r) :
    GoodRot r := by
  obtain ⟨hpe, hle, hv⟩ := fromPerm_some lr p hp
  rw [Rotator.new] at hr
  split_ifs at hr with h1
  have hlen : lr.length = 26 := by
    have hn : p.n = RUNE_SET_SIZE := by
      by_contra hcon
      exact h1 hcon
    rw [hpe] at hn
    have hn2 : lr.length % 256 = RUNE_SET_SIZE := hn
    simp only [RUNE_SET_SIZE] at hn2
    omega
  have hre : r = ⟨p, p.inverse, o % RUNE_SET_SIZE⟩ := (Option.some.inj hr).symm
  refine ⟨lr, hv, hlen, ?_, ?_, ?_⟩
  · rw [hre, hpe]
  · rw [hre, hpe]
  · rw [hre]
    show o % RUNE_SET_SIZE < 26
    rw [RUNE_SET_SIZE]
    omega

theorem goodRot_forward_lt (r : Rotator) (h : GoodRot r) (u : Rune)
    (hu : u.value < 26) : (r.mapForward u).value < 26 := by
  obtain ⟨l, hvp, hlen, hf, _, ho⟩ := h
  obtain ⟨x⟩ := u
  have hq : r.permForward.map ((x + r.offset) % 26) < 26 := by
    rw [hf]
    show lget l ((x + r.offset) % 26) < 26
    have := hvp.1 ((x + r.offset) % 26) (by omega)
    omega
  rw [Rotator.mapForward, mapWith_val_norm r r.permForward x ho hq]
  show (r.permForward.map ((x + r.offset) % 26) + 26 - r.offset) % 26 < 26
  omega

theorem goodRot_backward_lt (r : Rotator) (h : GoodRot r) (u : Rune)
    (hu : u.value < 26) : (r.mapBackward u).value < 26 := by
  obtain ⟨l, hvp, hlen, _, hb, ho⟩ := h
  obtain ⟨x⟩ := u
  have hq : r.permBackward.map ((x + r.offset) % 26) < 26 := by
    rw [hb]
    have := (inverse_map_right l hvp ((x + r.offset) % 26) (by omega)).1
    omega
  rw [Rotator.mapBackward, mapWith_val_norm r r.permBackward x ho hq]
  show (r.permBackward.map ((x + r.offset) % 26) + 26 - r.offset) % 26 < 26
  omega

theorem goodRot_bf (r : Rotator) (h : GoodRot r) (u : Rune) (hu : u.value < 26) :
    r.mapBackward (r.mapForward u) = u := by
  obtain ⟨l, hvp, hlen, hf, hb, ho⟩ := h
  obtain ⟨x⟩ := u
  have hx : x < 26 := hu
  have hul : (x + r.offset) % 26 < l.length := by omega
  have hq : r.permForward.map ((x + r.offset) % 26) < 26 := by
    rw [hf]
    show lget l ((x + r.offset) % 26) < 26
    have := hvp.1 ((x + r.offset) % 26) hul
    omega
  rw [Rotator.mapForward, mapWith_val_norm r r.permForward x ho hq]
  have hw : ((r.permForward.map ((x + r.offset) % 26) + 26 - r.offset) % 26 + r.offset)
      % 26 = r.permForward.map ((x + r.offset) % 26) := by omega
  have hq2 : r.permBackward.map
      (((r.permForward.map ((x + r.offset) % 26) + 26 - r.offset) % 26 + r.offset) % 26)
      < 26 := by
    rw [hw, hf, hb, inverse_map l hvp ((x + r.offset) % 26) hul]
    omega
  rw [Rotator.mapBackward, mapWith_val_norm r r.permBackward _ ho hq2, hw, hf, hb,
    inverse_map l hvp ((x + r.offset) % 26) hul]
  congr 1
  omega

theorem goodRot_fb (r : Rotator) (h : GoodRot r) (u : Rune) (hu : u.value < 26) :
    r.mapForward (r.mapBackward u) = u := by
  obtain ⟨l, hvp, hlen, hf, hb, ho⟩ := h
  obtain ⟨x⟩ := u
  have hx : x < 26 := hu
  have hul : (x + r.offset) % 26 < l.length := by omega
  have hq : r.permBackward.map ((x + r.offset) % 26) < 26 := by
    rw [hb]
    have := (inverse_map_right l hvp ((x + r.offset) % 26) hul).1
    omega
  rw [Rotator.mapBackward, mapWith_val_norm r r.permBackward x ho hq]
  have hw : ((r.permBackward.map ((x + r.offset) % 26) + 26 - r.offset) % 26 + r.offset)
      % 26 = r.permBackward.map ((x + r.offset) % 26) := by omega
  have hq2 : r.permForward.map
      (((r.permBackward.map ((x + r.offset) % 26) + 26 - r.offset) % 26 + r.offset) % 26)
      < 26 := by
    rw [hw, hb, hf, (inverse_map_right l hvp ((x + r.offset) % 26) hul).2]
    omega
  rw [Rotator.mapForward, mapWith_val_norm r r.permForward _ ho hq2, hw, hb, hf,
    (inverse_map_right l hvp ((x + r.offset) % 26) hul).2]
  congr 1
  omega

/-! ### Rotator group round trips -/

theorem group_forward_lt (g : RotatorGroup) (h0 : GoodRot g.r0) (h1 : GoodRot g.r1)
    (h2 : GoodRot g.r2) (u : Rune) (hu : u.value < 26) :
    (g.mapForward u).value < 26 := by
  rw [RotatorGroup.mapForward]
  exact goodRot_forward_lt g.r2 h2 _
    (goodRot_forward_lt g.r1 h1 _ (goodRot_forward_lt g.r0 h0 u hu))

theorem group_backward_lt (g : RotatorGroup) (h0 : GoodRot g.r0) (h1 : GoodRot g.r1)
    (h2 : GoodRot g.r2) (u : Rune) (hu : u.value < 26) :
    (g.mapBackward u).value < 26 := by
  rw [RotatorGroup.mapBackward]
  exact goodRot_backward_lt g.r0 h0 _
    (goodRot_backward_lt g.r1 h1 _ (goodRot_backward_lt g.r2 h2 u hu))

theorem group_bf (g : RotatorGroup) (h0 : GoodRot g.r0) (h1 : GoodRot g.r1)
    (h2 : GoodRot g.r2) (u : Rune) (hu : u.value < 26) :
    g.mapBackward (g.mapForward u) = u := by
  rw [RotatorGroup.mapForward, RotatorGroup.mapBackward]
  rw [goodRot_bf g.r2 h2 _ (goodRot_forward_lt g.r1 h1 _ (goodRot_forward_lt g.r0 h0 u hu))]
  rw [goodRot_bf g.r1 h1 _ (goodRot_forward_lt g.r0 h0 u hu)]
  exact goodRot_bf g.r0 h0 u hu

theorem group_fb (g : RotatorGroup) (h0 : GoodRot g.r0) (h1 : GoodRot g.r1)
    (h2 : GoodRot g.r2) (u : Rune) (hu : u.value < 26) :
    g.mapForward (g.mapBackward u) = u := by
  rw [RotatorGroup.mapBackward, RotatorGroup.mapForward]
  rw [goodRot_fb g.r0 h0 _ (goodRot_backward_lt g.r1 h1 _
    (goodRot_backward_lt g.r2 h2 u hu))]
  rw [goodRot_fb g.r1 h1 _ (goodRot_backward_lt g.r2 h2 u hu)]
  exact goodRot_fb g.r2 h2 u hu

/-! ### Plug board and reflector facts -/

theorem plugBoardFromPerm_some (lp : List Nat) (pp : Permutation) (plug : PlugBoard)
    (hp : Permutation.fromPerm lp = some pp) (hb : PlugBoard.fromPerm pp = some plug) :
    plug = ⟨⟨lp⟩⟩ ∧ lp.length = 26 ∧ ValidPerm lp ∧ maxCycleLen lp ≤ 2 := by
  obtain ⟨hpe, hle, hv⟩ := fromPerm_some lp pp hp
  rw [PlugBoard.fromPerm] at hb
  split_ifs at hb with h1 h2
  have hn : pp.n = RUNE_SET_SIZE := by
    by_contra hcon
    exact h1 hcon
  rw [hpe] at hn
  have hn2 : lp.length % 256 = RUNE_SET_SIZE := hn
  simp only [RUNE_SET_SIZE] at hn2
  have hlen : lp.length = 26 := by omega
  have hplug : plug = ⟨pp⟩ := (Option.some.inj hb).symm
  refine ⟨by rw [hplug, hpe], hlen, hv, ?_⟩
  rw [hpe] at h2
  have h2' : ¬2 < maxCycleLen lp := h2
  omega

theorem plug_map_map (lp : List Nat) (hv : ValidPerm lp) (hlen : lp.length = 26)
    (hmcl : maxCycleLen lp ≤ 2) (u : Rune) (hu : u.value < 26) :
    PlugBoard.map ⟨⟨lp⟩⟩ (PlugBoard.map ⟨⟨lp⟩⟩ u) = u ∧
      (PlugBoard.map ⟨⟨lp⟩⟩ u).value < 26 := by
  obtain ⟨x⟩ := u
  have hx : x < 26 := hu
  have h1 : lget lp x < 26 := by
    have := hv.1 x (by omega)
    omega
  have h2 := involution_of_mcl lp hv hmcl x (by omega)
  constructor
  · show (⟨lget lp (lget lp x)⟩ : Rune) = ⟨x⟩
    rw [h2]
  · exact h1

theorem reflectorFromPerm_some (lf : List Nat) (pf : Permutation) (refl : Reflector)
    (hp : Permutation.fromPerm lf = some pf) (hb : Reflector.fromPerm pf = some refl) :
    refl = ⟨⟨lf⟩⟩ ∧ lf.length = 26 ∧ ValidPerm lf ∧ maxCycleLen lf = 2 := by
  obtain ⟨hpe, hle, hv⟩ := fromPerm_some lf pf hp
  rw [Reflector.fromPerm] at hb
  split_ifs at hb with h1 h2 h3
  have hn : pf.n = RUNE_SET_SIZE := by
    by_contra hcon
    exact h1 hcon
  rw [hpe] at hn
  have hn2 : lf.length % 256 = RUNE_SET_SIZE := hn
  simp only [RUNE_SET_SIZE] at hn2
  have hlen : lf.length = 26 := by omega
  have hrefl : refl = ⟨pf⟩ := (Option.some.inj hb).symm
  refine ⟨by rw [hrefl, hpe], hlen, hv, ?_⟩
  rw [hpe] at h3
  have h3' : ¬maxCycleLen lf ≠ 2 := h3
  omega

theorem refl_map_map (lf : List Nat) (hv : ValidPerm lf) (hlen : lf.length = 26)
    (hmcl : maxCycleLen lf = 2) (u : Rune) (hu : u.value < 26) :
    Reflector.map ⟨⟨lf⟩⟩ (Reflector.map ⟨⟨lf⟩⟩ u) = u ∧
      (Reflector.map ⟨⟨lf⟩⟩ u).value < 26 := by
  obtain ⟨x⟩ := u
  have hx : x < 26 := hu
  have h1 : lget lf x < 26 := by
    have := hv.1 x (by omega)
    omega
  have h2 := involution_of_mcl lf hv (by omega) x (by omega)
  constructor
  · show (⟨lget lf (lget lf x)⟩ : Rune) = ⟨x⟩
    rw [h2]
  · exact h1

/-- C1.  For every validly constructed cipher machine (valid plug board,
rotator group of valid rotators, valid reflector) and every letter `L`,
the static mapping applied twice at the same fixed rotor position gives
back `L`: `map_rune_static(map_rune_static(L)) = L`. -/
theorem enigma_static_involution
    (lp lr1 lr2 lr3 lf : List Nat) (o1 o2 o3 : Nat)
    (pp p1 p2 p3 pf : Permutation) (plug : PlugBoard) (rt1 rt2 rt3 : Rotator)
    (refl : Reflector)
    (hpp : Permutation.fromPerm lp = some pp)
    (hplug : PlugBoard.fromPerm pp = some plug)
    (hp1 : Permutation.fromPerm lr1 = some p1) (hr1 : Rotator.new p1 o1 = some rt1)
    (hp2 : Permutation.fromPerm lr2 = some p2) (hr2 : Rotator.new p2 o2 = some rt2)
    (hp3 : Permutation.fromPerm lr3 = some p3) (hr3 : Rotator.new p3 o3 = some rt3)
    (hpf : Permutation.fromPerm lf = some pf)
    (hrefl : Reflector.fromPerm pf = some refl)
    (L : Rune) (hL : L.value < 26) :
    Enigma.mapRuneStatic ⟨plug, ⟨rt1, rt2, rt3⟩, refl⟩
      (Enigma.mapRuneStatic ⟨plug, ⟨rt1, rt2, rt3⟩, refl⟩ L) = L := by
  obtain ⟨hple, hplen, hpv, hpm⟩ := plugBoardFromPerm_some lp pp plug hpp hplug
  obtain ⟨hrle, hrlen, hrv, hrm⟩ := reflectorFromPerm_some lf pf refl hpf hrefl
  have g0 : GoodRot rt1 := rotatorNew_good lr1 p1 o1 rt1 hp1 hr1
  have g1 : GoodRot rt2 := rotatorNew_good lr2 p2 o2 rt2 hp2 hr2
  have g2 : GoodRot rt3 := rotatorNew_good lr3 p3 o3 rt3 hp3 hr3
  subst hple
  subst hrle
  simp only [Enigma.mapRuneStatic]
  have hA : (PlugBoard.map ⟨⟨lp⟩⟩ L).value < 26 :=
    (plug_map_map lp hpv hplen hpm L hL).2
  have hB : ((RotatorGroup.mk rt1 rt2 rt3).mapForward (PlugBoard.map ⟨⟨lp⟩⟩ L)).value
      < 26 := group_forward_lt ⟨rt1, rt2, rt3⟩ g0 g1 g2 _ hA
  have hC : (Reflector.map ⟨⟨lf⟩⟩
      ((RotatorGroup.mk rt1 rt2 rt3).mapForward (PlugBoard.map ⟨⟨lp⟩⟩ L))).value < 26 :=
    (refl_map_map lf hrv hrlen hrm _ hB).2
  have hD : ((RotatorGroup.mk rt1 rt2 rt3).mapBackward (Reflector.map ⟨⟨lf⟩⟩
      ((RotatorGroup.mk rt1 rt2 rt3).mapForward (PlugBoard.map ⟨⟨lp⟩⟩ L)))).value < 26 :=
    group_backward_lt ⟨rt1, rt2, rt3⟩ g0 g1 g2 _ hC
  rw [(plug_map_map lp hpv hplen hpm _ hD).1]
  rw [group_fb ⟨rt1, rt2, rt3⟩ g0 g1 g2 _ hC]
  rw [(refl_map_map lf hrv hrlen hrm _ hB).1]
  rw [group_bf ⟨rt1, rt2, rt3⟩ g0 g1 g2 _ hA]
  exact (plug_map_map lp hpv hplen hpm L hL).1

/-- C2.  For every rotator freshly constructed by `Rotator::new` from a
validly constructed size-26 permutation and any offset, and every letter,
`map_backward(map_forward(L)) = L`. -/
theorem rotator_backward_forward (lr : List Nat) (p : Permutation) (o : Nat)
    (r : Rotator) (L : Rune)
    (hp : Permutation.fromPerm lr = some p) (hr : Rotator.new p o = some r)
    (hL : L.value < 26) :
    r.mapBackward (r.mapForward L) = L :=
  goodRot_bf r (rotatorNew_good lr p o r hp hr) L hL

/-! ### Odometer behaviour of the rotator group -/

theorem group_advance_offsets (g : RotatorGroup) :
    g.advance.r0.offset = (g.r0.offset + 1) % 26 ∧
    g.advance.r1.offset =
      (if (g.r0.offset + 1) % 26 = 0 then (g.r1.offset + 1) % 26 else g.r1.offset) ∧
    g.advance.r2.offset =
      (if (g.r0.offset + 1) % 26 = 0 ∧ (g.r1.offset + 1) % 26 = 0 then
        (g.r2.offset + 1) % 26 else g.r2.offset) := by
  simp only [RotatorGroup.advance, Rotator.advance, RUNE_SET_SIZE, bne_iff_ne, ne_eq]
  split_ifs with h0 h1 <;> simp_all

/-- The packed base-26 odometer value of the three offsets. -/
def groupVal (g : RotatorGroup) : Nat :=
  g.r0.offset + 26 * g.r1.offset + 676 * g.r2.offset

theorem group_advance_digits (g : RotatorGroup) (w : Nat)
    (h0 : g.r0.offset = w % 26) (h1 : g.r1.offset = w / 26 % 26)
    (h2 : g.r2.offset = w / 676 % 26) :
    g.advance.r0.offset = (w + 1) % 26 ∧
    g.advance.r1.offset = (w + 1) / 26 % 26 ∧
    g.advance.r2.offset = (w + 1) / 676 % 26 := by
  obtain ⟨a0, a1, a2⟩ := group_advance_offsets g
  rw [a0, a1, a2, h0, h1, h2]
  have hdd : w / 676 = w / 26 / 26 := by omega
  have hdd' : (w + 1) / 676 = (w + 1) / 26 / 26 := by omega
  refine ⟨by omega, ?_, ?_⟩
  · split_ifs with h
    · omega
    · omega
  · split_ifs with h
    · omega
    · omega

theorem group_advance_iterate (g : RotatorGroup) (hg0 : g.r0.offset < 26)
    (hg1 : g.r1.offset < 26) (hg2 : g.r2.offset < 26) (k : Nat) :
    (RotatorGroup.advance^[k] g).r0.offset = (groupVal g + k) % 26 ∧
    (RotatorGroup.advance^[k] g).r1.offset = (groupVal g + k) / 26 % 26 ∧
    (RotatorGroup.advance^[k] g).r2.offset = (groupVal g + k) / 676 % 26 := by
  induction k with
  | zero =>
    simp only [Function.iterate_zero_apply, Nat.add_zero, groupVal]
    refine ⟨by omega, by omega, by omega⟩
  | succ k ih =>
    rw [Function.iterate_succ_apply']
    have hd := group_advance_digits (RotatorGroup.advance^[k] g) (groupVal g + k)
      ih.1 ih.2.1 ih.2.2
    have he : groupVal g + (k + 1) = groupVal g + k + 1 := rfl
    rw [he]
    exact hd

/-- C3.  For every rotator group in a reachable state, 26 advances return
the fast rotator to its original offset and step the medium rotator's
offset exactly once, and 26 * 26 advances step the slow rotator's offset
exactly once. -/
theorem rotatorGroup_advance_carry (g : RotatorGroup)
    (h0 : g.r0.offset < 26) (h1 : g.r1.offset < 26) (h2 : g.r2.offset < 26) :
    (RotatorGroup.advance^[26] g).r0.offset = g.r0.offset ∧
    (RotatorGroup.advance^[26] g).r1.offset = (g.r1.offset + 1) % 26 ∧
    (RotatorGroup.advance^[26 * 26] g).r2.offset = (g.r2.offset + 1) % 26 := by
  obtain ⟨a, b, _⟩ := group_advance_iterate g h0 h1 h2 26
  obtain ⟨_, _, f⟩ := group_advance_iterate g h0 h1 h2 (26 * 26)
  refine ⟨?_, ?_, ?_⟩
  · rw [a]
    simp only [groupVal]
    omega
  · rw [b]
    simp only [groupVal]
    omega
  · rw [f]
    simp only [groupVal]
    omega

/-! ### Text mapping -/

/-- Spec-side description of the text mapping (for the refinement claim):
take a stream of already-filtered letters, push each through `map_rune`
(static map, then advance) and emit the uppercase character. -/
def mapAlphaSpec : Enigma → List Char → List Char
  | _, [] => []
  | m, c :: rest =>
    ((m.mapRune ((Rune.fromChar c).getD ⟨0⟩)).1).intoChar ::
      mapAlphaSpec (m.mapRune ((Rune.fromChar c).getD ⟨0⟩)).2 rest

theorem fromChar_of_not_alpha (c : Char) (hc : isAsciiAlphabetic c = false) :
    Rune.fromChar c = none := by
  rw [Rune.fromChar, if_pos hc]

theorem fromChar_of_alpha (c : Char) (hc : isAsciiAlphabetic c = true) :
    Rune.fromChar c =
      some ⟨(if isAsciiLowercase c = true then c.toNat - 32 else c.toNat) - 65⟩ := by
  rw [Rune.fromChar, if_neg (by rw [hc]; decide)]

/-- C5.  `map_str` returns exactly the uppercase images, under `map_rune`,
of the ASCII-alphabetic characters of the input in order, and skipped
characters leave no trace in the output. -/
theorem mapStr_filter_alpha (m : Enigma) (s : List Char) :
    (m.mapStr s).1 = mapAlphaSpec m (s.filter isAsciiAlphabetic) := by
  induction s generalizing m with
  | nil => rfl
  | cons c rest ih =>
    cases hc : isAsciiAlphabetic c with
    | false =>
      rw [List.filter_cons, if_neg (by rw [hc]; decide)]
      simp only [Enigma.mapStr, fromChar_of_not_alpha c hc]
      exact ih m
    | true =>
      rw [List.filter_cons, if_pos (by rw [hc])]
      simp only [Enigma.mapStr, fromChar_of_alpha c hc, mapAlphaSpec, Option.getD_some,
        Enigma.mapRune]
      rw [ih]

/-- C10.  `map_str` advances the rotor state exactly once per
ASCII-alphabetic character; skipped characters do not step the machine. -/
theorem mapStr_advances_per_letter (m : Enigma) (s : List Char) :
    (m.mapStr s).2 =
      Enigma.advanceRotators^[(s.filter isAsciiAlphabetic).length] m := by
  induction s generalizing m with
  | nil => rfl
  | cons c rest ih =>
    cases hc : isAsciiAlphabetic c with
    | false =>
      rw [List.filter_cons, if_neg (by rw [hc]; decide)]
      simp only [Enigma.mapStr, fromChar_of_not_alpha c hc]
      exact ih m
    | true =>
      rw [List.filter_cons, if_pos (by rw [hc])]
      simp only [Enigma.mapStr, fromChar_of_alpha c hc, Enigma.mapRune, List.length_cons]
      rw [ih, Function.iterate_succ_apply]

/-- C6.  `Permutation::from_perm` fails exactly when the vector is longer
than 255, contains a value at least the length, or contains a duplicate;
on all other inputs it wraps exactly the given vector. -/
theorem fromPerm_spec (l : List Nat) :
    (Permutation.fromPerm l = none ↔
      (255 < l.length ∨ (∃ x ∈ l, l.length ≤ x) ∨ ¬l.Nodup)) ∧
    (Permutation.fromPerm l = none ∨ Permutation.fromPerm l = some ⟨l⟩) := by
  rw [Permutation.fromPerm]
  split_ifs with h1 h2 h3
  · exact ⟨iff_of_true rfl (Or.inl h1), Or.inl rfl⟩
  · refine ⟨iff_of_true rfl (Or.inr (Or.inl ?_)), Or.inl rfl⟩
    obtain ⟨x, hx, hds⟩ := List.any_eq_true.1 h2
    exact ⟨x, hx, by simpa using hds⟩
  · refine ⟨iff_of_true rfl (Or.inr (Or.inr ?_)), Or.inl rfl⟩
    intro hnd
    rw [← hasDupVal_eq_false_iff] at hnd
    rw [hnd] at h3
    exact absurd h3 (by decide)
  · refine ⟨iff_of_false (by simp) ?_, Or.inr rfl⟩
    rintro (h | ⟨x, hx, hle⟩ | h)
    · exact h1 h
    · exact h2 (List.any_eq_true.2 ⟨x, hx, by simpa using hle⟩)
    · apply h
      apply (hasDupVal_eq_false_iff l).1
      cases hb : hasDupVal l
      · rfl
      · exact absurd hb h3

/-! ### Reflector acceptance, cycle statistics, and the crack binary -/

/-- C7.  `Reflector::from_perm` rejects any validly constructed permutation
with a fixed point, rejects any whose size is not 26 or whose longest
cycle is not 2, and accepts every fixed-point-free involution on all 26
letters. -/
theorem reflector_fromPerm_spec (l : List Nat) (p : Permutation)
    (hp : Permutation.fromPerm l = some p) :
    ((∃ i, i < l.length ∧ lget l i = i) → Reflector.fromPerm p = none) ∧
    ((l.length ≠ 26 ∨ maxCycleLen l ≠ 2) → Reflector.fromPerm p = none) ∧
    ((l.length = 26 ∧ ∀ i, i < 26 → lget l (lget l i) = i ∧ lget l i ≠ i) →
      Reflector.fromPerm p = some ⟨p⟩) := by
  obtain ⟨hpe, hle, hv⟩ := fromPerm_some l p hp
  subst hpe
  have hn' : Permutation.n ⟨l⟩ = l.length := by
    show l.length % 256 = l.length
    omega
  refine ⟨?_, ?_, ?_⟩
  · rintro ⟨i, hi, hfix⟩
    rw [Reflector.fromPerm]
    split_ifs with h1 h2 h3
    · rfl
    · rfl
    · rfl
    · exfalso
      apply h2
      apply List.any_eq_true.2
      refine ⟨i, ?_, ?_⟩
      · rw [List.mem_range, hn']
        exact hi
      · simp only [decide_eq_true_eq]
        exact hfix
  · intro h
    rw [Reflector.fromPerm]
    split_ifs with h1 h2 h3
    · rfl
    · rfl
    · rfl
    · exfalso
      rcases h with hlen | hmcl
      · apply hlen
        have hne : Permutation.n ⟨l⟩ = RUNE_SET_SIZE := by
          by_contra hcon
          exact h1 hcon
        rw [hn'] at hne
        rw [hne]
        rfl
      · apply hmcl
        by_contra hcon
        exact h3 fun hcon' => hcon hcon'
  · rintro ⟨hlen, hinv⟩
    have hA : ¬(Permutation.n ⟨l⟩ ≠ RUNE_SET_SIZE) := by
      rw [hn', hlen]
      intro hcon
      exact hcon rfl
    have hB : ¬((List.range (Permutation.n ⟨l⟩)).any
        (fun i => decide (Permutation.map ⟨l⟩ i = i)) = true) := by
      intro hcon
      obtain ⟨i, hmem, hdec⟩ := List.any_eq_true.1 hcon
      rw [List.mem_range, hn', hlen] at hmem
      simp only [decide_eq_true_eq] at hdec
      exact (hinv i hmem).2 hdec
    have hC : ¬(maxCycleLen l ≠ 2) := by
      intro hcon
      exact hcon (mcl_of_fpf_involution l hv (by omega) fun x hx =>
        hinv x (by omega))
    rw [Reflector.fromPerm, if_neg hA, if_neg hB, if_neg hC]

/-- C9 counterexample: the empty vector is a valid permutation (its
construction succeeds), yet its longest cycle length is 0, outside the
interval [1, n]. -/
theorem maxCycleLen_empty_counterexample :
    Permutation.fromPerm ([] : List Nat) = some ⟨[]⟩ ∧
      ¬(1 ≤ maxCycleLen ([] : List Nat)) := by decide

/-- C9 (amended).  For every validly constructed permutation vector of
size at least 1 the longest cycle length lies in [1, n], and for every
validly constructed permutation vector the cycle decomposition sums to n. -/
theorem maxCycleLen_bounds_and_decomposition_sum (l : List Nat) (p : Permutation)
    (hp : Permutation.fromPerm l = some p) :
    (1 ≤ l.length → 1 ≤ maxCycleLen l ∧ maxCycleLen l ≤ l.length) ∧
    (getCycleDecomposition l).sum = l.length := by
  obtain ⟨_, _, hv⟩ := fromPerm_some l p hp
  exact ⟨fun h => maxCycleLen_bounds l hv h, getCycleDecomposition_sum l hv⟩

/-- C4 evaluation.  `combine_permutations` allocates its output with
`Vec::with_capacity` (length 0) and then writes `ret[i]`, so its first
write is out of bounds for every pair of input permutations: the modelled
run aborts instead of producing the composed permutation. -/
theorem combinePermutations_eq_none (lhs rhs : Permutation) :
    combinePermutations lhs rhs = none := by
  have habs : ∀ (idx : List Nat),
      idx.foldl (fun acc i =>
        match acc with
        | none => none
        | some ret => setChecked ret i (rhs.map (lhs.map i))) none = none := by
    intro idx
    induction idx with
    | nil => rfl
    | cons a rest ih => rw [List.foldl_cons]; exact ih
  have hr : List.range RUNE_SET_SIZE = 0 :: List.range' 1 25 := by decide
  have hfold : (List.range RUNE_SET_SIZE).foldl (fun acc i =>
      match acc with
      | none => none
      | some ret => setChecked ret i (rhs.map (lhs.map i))) (some []) = none := by
    rw [hr, List.foldl_cons]
    exact habs _
  show (match (List.range RUNE_SET_SIZE).foldl (fun acc i =>
      match acc with
      | none => none
      | some ret => setChecked ret i (rhs.map (lhs.map i))) (some []) with
    | none => none
    | some ret => Permutation.fromPerm ret) = none
  rw [hfold]

/-- C8 evaluation.  `get_secret_permutations` indexes each 26-cell buffer
with the raw ASCII byte of the indicator (97 for letter a) because the
code never subtracts the letter base, so the very first indicator causes
an out-of-bounds abort before any conflict or insufficiency check. -/
theorem getSecretPermutations_oob :
    getSecretPermutations [[97, 98, 99, 100, 101, 102]] =
      SecretOutcome.oobAbort := by decide

/-! ### Concrete instances used by the witnesses -/

/-- The adjacent-pair swap wiring (a b)(c d)...(y z). -/
def pairedWiring : List Nat :=
  [1, 0, 3, 2, 5, 4, 7, 6, 9, 8, 11, 10, 13, 12, 15, 14, 17, 16, 19, 18, 21,
    20, 23, 22, 25, 24]

/-- An identity-wired rotator at offset 0. -/
def identityRot : Rotator :=
  ⟨⟨identityPerm 26⟩, Permutation.inverse ⟨identityPerm 26⟩, 0⟩

/-- An identity-wired rotator at offset 5. -/
def identityRot5 : Rotator :=
  ⟨⟨identityPerm 26⟩, Permutation.inverse ⟨identityPerm 26⟩, 5⟩

/-- A concrete validly constructed machine: identity plug board, identity
rotators at offset 0, adjacent-pair reflector. -/
def witMachine : Enigma :=
  ⟨⟨⟨identityPerm 26⟩⟩, ⟨identityRot, identityRot, identityRot⟩, ⟨⟨pairedWiring⟩⟩⟩

/-- Witness for C1 at a concrete machine and the letter 0. -/
theorem enigma_static_involution_witness :
    witMachine.mapRuneStatic (witMachine.mapRuneStatic ⟨0⟩) = ⟨0⟩ :=
  enigma_static_involution (identityPerm 26) (identityPerm 26) (identityPerm 26)
    (identityPerm 26) pairedWiring 0 0 0 ⟨identityPerm 26⟩ ⟨identityPerm 26⟩
    ⟨identityPerm 26⟩ ⟨identityPerm 26⟩ ⟨pairedWiring⟩ ⟨⟨identityPerm 26⟩⟩
    identityRot identityRot identityRot ⟨⟨pairedWiring⟩⟩
    (by decide) (by decide) (by decide) (by decide) (by decide) (by decide)
    (by decide) (by decide) (by decide) (by decide) ⟨0⟩ (by decide)

/-- Witness for C2 at a concrete rotator and the letter 3. -/
theorem rotator_backward_forward_witness :
    identityRot5.mapBackward (identityRot5.mapForward ⟨3⟩) = ⟨3⟩ :=
  rotator_backward_forward (identityPerm 26) ⟨identityPerm 26⟩ 5 identityRot5 ⟨3⟩
    (by decide) (by decide) (by decide)

/-- Witness for C3 at a concrete rotator group. -/
theorem rotatorGroup_advance_carry_witness :
    (RotatorGroup.advance^[26] ⟨identityRot, identityRot, identityRot⟩).r0.offset =
        (⟨identityRot, identityRot, identityRot⟩ : RotatorGroup).r0.offset ∧
      (RotatorGroup.advance^[26] ⟨identityRot, identityRot, identityRot⟩).r1.offset =
        ((⟨identityRot, identityRot, identityRot⟩ : RotatorGroup).r1.offset + 1) % 26 ∧
      (RotatorGroup.advance^[26 * 26]
          ⟨identityRot, identityRot, identityRot⟩).r2.offset =
        ((⟨identityRot, identityRot, identityRot⟩ : RotatorGroup).r2.offset + 1) % 26 :=
  rotatorGroup_advance_carry ⟨identityRot, identityRot, identityRot⟩
    (by decide) (by decide) (by decide)

/-- Witness for C7: the adjacent-pair wiring is accepted. -/
theorem reflector_fromPerm_spec_witness :
    Reflector.fromPerm ⟨pairedWiring⟩ = some ⟨⟨pairedWiring⟩⟩ :=
  (reflector_fromPerm_spec pairedWiring ⟨pairedWiring⟩ (by decide)).2.2
    ⟨by decide, by decide⟩

/-- Witness for C9 (amended) at the transposition of two elements. -/
theorem maxCycleLen_bounds_sum_witness :
    (1 ≤ ([1, 0] : List Nat).length →
      1 ≤ maxCycleLen [1, 0] ∧ maxCycleLen [1, 0] ≤ ([1, 0] : List Nat).length) ∧
    (getCycleDecomposition [1, 0]).sum = ([1, 0] : List Nat).length :=
  maxCycleLen_bounds_and_decomposition_sum [1, 0] ⟨[1, 0]⟩ (by decide)
